import Mathlib

/-!
# Verification of the size-constrained encode search of `dynamic_badge`

This file embeds the quality-constrained encode search engine of
`src/main.py` (the `SizeSearchState` dataclass together with the methods
`MainWindow._make_badge`, `_handle_size_search_attempt`,
`_start_next_binary_search_attempt`, `_apply_best_size_search_result`,
`_cleanup_size_search_temp_files` and `_cancel_make_badge`) as a small-step
state machine, and proves the testable properties of the specification
against it.

Modelling conventions:

* The external encoder is an oracle `Env`: `encSize q` is the byte size of
  the artifact produced at quality `q` (sizes are a function of quality for
  the fixed crop/scale/fps parameters of one run), `encOk q` tells whether
  the ffmpeg invocation at quality `q` completes successfully, `statOk q`
  whether the size probe (`Path.stat`) succeeds afterwards, and `replaceOk`
  whether the final `Path.replace` promotion succeeds.
* Temporary paths produced by `_new_temp_webp_path` are collision free
  (a fresh uuid token per allocation), so they are modelled as consecutive
  naturals handed out by the `nextId` counter.
* The ghost fields `disk` (temp files currently existing on the filesystem),
  `finalContent` (what the final destination path currently holds),
  `launched` and `qualities` (the encode attempts started so far) record
  the observable effects of the run; they do not influence control flow.
* Python integers in this code stay nonnegative on every reachable state
  (`quality_min = 1`, `quality_max = max(1, quality)`, binary bounds stay
  inside `[1, quality_max]`; this is proved as part of the run invariant
  below), so `Nat` models them faithfully: the truncated subtractions
  `quality_max - 1` and `quality - 1` never differ from the Python values
  where their results are consulted.
-/

namespace DynamicBadge

/-- Search phase tags: the `phase` strings `"test_max"`, `"test_min"` and
`"binary"` of `SizeSearchState`. -/
inductive Phase
  | testMax
  | testMin
  | binary
  deriving DecidableEq, Repr

/-- The `best_quality` / `best_size_bytes` / `best_temp_path` triple of
`SizeSearchState`, always assigned together. -/
structure BestResult where
  quality : Nat
  sizeBytes : Nat
  tempPath : Nat
  deriving DecidableEq, Repr

/-- What the final destination path currently holds: the file that was there
before the run started, or the promoted artifact of one attempt. -/
inductive FinalContent
  | original
  | committed (quality : Nat)
  deriving DecidableEq, Repr

/-- The attainment notes passed to `_apply_best_size_search_result`, one per
call site in `_handle_size_search_attempt`. -/
inductive AttainNote
  | metAtMaxQuality
  | unattainableLowestUsed
  | metAtMinNoGap
  | intervalExhausted
  | maxAttemptsReached
  deriving DecidableEq, Repr

/-- The distinct failure messages a size-constrained run can finish with. -/
inductive FailReason
  | encodeFailed
  | statFailed
  | noUsableOutput
  | replaceFailed
  deriving DecidableEq, Repr

/-- Terminal outcome of a size-constrained run. -/
inductive Outcome
  | success (quality sizeBytes : Nat) (note : AttainNote)
  | failed (reason : FailReason)
  | canceled
  deriving DecidableEq, Repr

/-- The `SizeSearchState` dataclass of `main.py`, extended with the pending
attempt (`_pending_out_path` / `_current_quality` of `MainWindow`), the fresh
path counter, and the ghost observables. -/
structure SizeSearchState where
  targetBytes : Nat
  qualityMin : Nat
  qualityMax : Nat
  phase : Phase
  low : Nat
  high : Nat
  attempt : Nat
  maxAttempts : Nat
  best : Option BestResult
  tempPaths : List Nat
  disk : List Nat
  finalContent : Option FinalContent
  pendingPath : Nat
  pendingQ : Nat
  nextId : Nat
  launched : Nat
  qualities : List Nat
  deriving DecidableEq, Repr

/-- The external world of one run: encoder, size probe and promotion. -/
structure Env where
  encSize : Nat → Nat
  encOk : Nat → Bool
  statOk : Nat → Bool
  replaceOk : Bool

/-- Terminal report of a run together with the final ghost observables. -/
structure FinalReport where
  outcome : Outcome
  disk : List Nat
  finalContent : Option FinalContent
  launched : Nat
  qualities : List Nat
  deriving DecidableEq, Repr

/-- Effect on the ghost disk of `path.unlink(missing_ok=True)`. -/
def unlink (disk : List Nat) (p : Nat) : List Nat :=
  disk.filter fun d => decide (d ≠ p)

/-- `MainWindow._cleanup_size_search_temp_files`: every path recorded in
`state.temp_paths` is unlinked (best effort) and the list is cleared. -/
def cleanupTemps (s : SizeSearchState) : List Nat :=
  s.disk.filter fun d => decide (d ∉ s.tempPaths)

/-- The failure exits of `_handle_size_search_attempt` and
`_apply_best_size_search_result`: `_cleanup_size_search_temp_files` followed
by `_finalize_size_search(ok=False, ...)`. -/
def failReport (s : SizeSearchState) (r : FailReason) : FinalReport :=
  { outcome := .failed r
    disk := cleanupTemps s
    finalContent := s.finalContent
    launched := s.launched
    qualities := s.qualities }

/-- `_new_temp_webp_path` plus `state.temp_paths.append(...)` plus
`_start_ffmpeg_encode`: allocate a fresh temp path, record it, and launch one
encode attempt at quality `q` writing to it. -/
def launchAttempt (s : SizeSearchState) (q : Nat) : SizeSearchState :=
  { s with
    tempPaths := s.tempPaths ++ [s.nextId]
    disk := s.disk ++ [s.nextId]
    pendingPath := s.nextId
    pendingQ := q
    nextId := s.nextId + 1
    launched := s.launched + 1
    qualities := s.qualities ++ [q] }

/-- `MainWindow._start_next_binary_search_attempt`: bump `state.attempt` and
launch an attempt at `(state.low + state.high) // 2`. -/
def startNextBinaryAttempt (s : SizeSearchState) : SizeSearchState :=
  launchAttempt { s with attempt := s.attempt + 1 } ((s.low + s.high) / 2)

/-- `MainWindow._apply_best_size_search_result`. The Python guard
`if not state or not state.best_temp_path or not state.best_quality` is true
when no best result is recorded and also when the recorded best quality is
the integer `0` (falsy in Python). On promotion failure the `except` branch
runs `_cleanup_size_search_temp_files` before reporting; on success the best
artifact is moved onto the final path, the remaining temp artifacts are
unlinked, and cleanup runs once more. -/
def applyBest (env : Env) (s : SizeSearchState) (note : AttainNote) : FinalReport :=
  match s.best with
  | none => failReport s .noUsableOutput
  | some b =>
    if b.quality = 0 then failReport s .noUsableOutput
    else if env.replaceOk then
      { outcome := .success b.quality b.sizeBytes note
        disk := (unlink s.disk b.tempPath).filter fun d => decide (d ∉ s.tempPaths)
        finalContent := some (.committed b.quality)
        launched := s.launched
        qualities := s.qualities }
    else failReport s .replaceFailed

/-- The unlink of the superseded best artifact in the adoption branch of the
`binary` phase: `if state.best_temp_path and state.best_temp_path != temp_path:
state.best_temp_path.unlink(missing_ok=True)`. -/
def dropSupersededBest (s : SizeSearchState) : List Nat :=
  match s.best with
  | some b => if b.tempPath = s.pendingPath then s.disk else unlink s.disk b.tempPath
  | none => s.disk

/-- The adoption test of the `binary` branch of `_handle_size_search_attempt`:
`size_bytes <= state.target_bytes and (state.best_quality is None or quality >
state.best_quality)`. -/
def adoptsCandidate (s : SizeSearchState) (sz q : Nat) : Bool :=
  decide (sz ≤ s.targetBytes) &&
    match s.best with
    | none => true
    | some b => decide (b.quality < q)

/-- Tail of the `binary` branch of `_handle_size_search_attempt`: report the
best result when the interval is exhausted or the attempt cap is reached,
otherwise launch the next binary-search attempt. -/
def binaryFinishOrContinue (env : Env) (s : SizeSearchState) :
    SizeSearchState ⊕ FinalReport :=
  if s.high < s.low then .inr (applyBest env s .intervalExhausted)
  else if s.maxAttempts ≤ s.attempt then .inr (applyBest env s .maxAttemptsReached)
  else .inl (startNextBinaryAttempt s)

/-- One completion event: `_on_ffmpeg_finished` (or `_on_ffmpeg_error`)
delivering the pending attempt to `_handle_size_search_attempt`. A `.inl`
result is the state after the next attempt has been launched; a `.inr` result
is a terminal report. -/
def step (env : Env) (s : SizeSearchState) : SizeSearchState ⊕ FinalReport :=
  if env.encOk s.pendingQ = false then .inr (failReport s .encodeFailed)
  else if env.statOk s.pendingQ = false then .inr (failReport s .statFailed)
  else
    match s.phase with
    | .testMax =>
      if env.encSize s.pendingQ ≤ s.targetBytes then
        .inr (applyBest env
          { s with best := some ⟨s.pendingQ, env.encSize s.pendingQ, s.pendingPath⟩ }
          .metAtMaxQuality)
      else
        .inl (launchAttempt
          { s with disk := unlink s.disk s.pendingPath, phase := .testMin }
          s.qualityMin)
    | .testMin =>
      if s.targetBytes < env.encSize s.pendingQ then
        .inr (applyBest env
          { s with best := some ⟨s.pendingQ, env.encSize s.pendingQ, s.pendingPath⟩ }
          .unattainableLowestUsed)
      else
        if s.qualityMax - 1 < s.qualityMin + 1 then
          .inr (applyBest env
            { s with
              best := some ⟨s.pendingQ, env.encSize s.pendingQ, s.pendingPath⟩
              phase := .binary
              low := s.qualityMin + 1
              high := s.qualityMax - 1 }
            .metAtMinNoGap)
        else
          .inl (startNextBinaryAttempt
            { s with
              best := some ⟨s.pendingQ, env.encSize s.pendingQ, s.pendingPath⟩
              phase := .binary
              low := s.qualityMin + 1
              high := s.qualityMax - 1 })
    | .binary =>
      if adoptsCandidate s (env.encSize s.pendingQ) s.pendingQ then
        binaryFinishOrContinue env
          { s with
            disk := dropSupersededBest s
            best := some ⟨s.pendingQ, env.encSize s.pendingQ, s.pendingPath⟩
            low := s.pendingQ + 1 }
      else
        binaryFinishOrContinue env
          { s with high := s.pendingQ - 1, disk := unlink s.disk s.pendingPath }

/-- Drive the machine to its terminal report, fuelled; `none` means the fuel
ran out before the run terminated (ruled out below with fuel `15`). -/
def run (env : Env) : Nat → SizeSearchState → Option FinalReport
  | 0, _ => none
  | fuel + 1, s =>
    match step env s with
    | .inr f => some f
    | .inl s1 => run env fuel s1

/-- The state after `n` completion events, `none` once the run has already
terminated. -/
def stepN (env : Env) : Nat → SizeSearchState → Option SizeSearchState
  | 0, s => some s
  | n + 1, s =>
    match step env s with
    | .inl s1 => stepN env n s1
    | .inr _ => none

/-- The size-constrained branch of `MainWindow._make_badge`:
`quality_min = 1`, `quality_max = max(quality_min, quality)`, phase
`"test_max"`, `low = quality_min`, `high = quality_max`, and the first
attempt launched at `quality_max` into a fresh temp path. The dataclass
defaults `attempt = 0` and `max_attempts = 12` are never overridden.
`destExists` records whether a file already existed at the final destination
path (the user confirmed overwrite before the run started). -/
def initState (quality targetBytes : Nat) (destExists : Bool) : SizeSearchState :=
  launchAttempt
    { targetBytes := targetBytes
      qualityMin := 1
      qualityMax := max 1 quality
      phase := .testMax
      low := 1
      high := max 1 quality
      attempt := 0
      maxAttempts := 12
      best := none
      tempPaths := []
      disk := []
      finalContent := if destExists then some .original else none
      pendingPath := 0
      pendingQ := 0
      nextId := 0
      launched := 0
      qualities := [] }
    (max 1 quality)

/-- `MainWindow._cancel_make_badge` invoked while an attempt is in flight:
the encoder process is killed, `_cleanup_size_search_temp_files` runs, and
then both `_pending_out_path` and `_final_out_path` are unlinked — including
the final destination path, whatever it held. -/
def cancelRun (s : SizeSearchState) : FinalReport :=
  { outcome := .canceled
    disk := unlink (cleanupTemps s) s.pendingPath
    finalContent := none
    launched := s.launched
    qualities := s.qualities }

/-- The quality a terminal report committed to the final destination, if the
run succeeded. -/
def committedQuality (f : FinalReport) : Option Nat :=
  match f.outcome with
  | .success q _ _ => some q
  | _ => none

/-- The phase-indexed part of the run invariant. In `test_max` and `test_min`
the only file on disk is the in-flight attempt and no best result exists; in
`binary` exactly the best artifact and the in-flight attempt are on disk, the
best quality sits just below the open interval, and the qualities launched in
the binary phase so far are pairwise distinct and outside the interval. -/
def phaseInvAt : Phase → SizeSearchState → Prop
  | .testMax, s =>
      s.best = none ∧ s.disk = [s.pendingPath] ∧ s.pendingQ = s.qualityMax ∧
      s.attempt = 0 ∧ s.launched = 1 ∧ s.qualities = [s.qualityMax]
  | .testMin, s =>
      s.best = none ∧ s.disk = [s.pendingPath] ∧ s.pendingQ = s.qualityMin ∧
      s.attempt = 0 ∧ s.launched = 2 ∧ s.qualities = [s.qualityMax, s.qualityMin]
  | .binary, s => ∃ b bqs,
      s.best = some b ∧
      s.disk = [b.tempPath, s.pendingPath] ∧
      b.tempPath ≠ s.pendingPath ∧
      b.tempPath ∈ s.tempPaths ∧
      (b.sizeBytes ≤ s.targetBytes ∨ b.quality = s.qualityMin) ∧
      b.quality + 1 = s.low ∧
      1 ≤ b.quality ∧
      s.launched = 2 + s.attempt ∧
      1 ≤ s.attempt ∧ s.attempt ≤ s.maxAttempts ∧
      s.qualityMin + 1 ≤ s.low ∧ s.low ≤ s.high ∧ s.high + 1 ≤ s.qualityMax ∧
      s.pendingQ = (s.low + s.high) / 2 ∧
      s.qualities = s.qualityMax :: s.qualityMin :: (bqs ++ [s.pendingQ]) ∧
      bqs.Nodup ∧
      (∀ x ∈ bqs, (x < s.low ∨ s.high < x) ∧ s.qualityMin < x ∧ x < s.qualityMax)

/-- The run invariant, established by `initState` and preserved by `step`. -/
def inv (s : SizeSearchState) : Prop :=
  s.qualityMin = 1 ∧ 1 ≤ s.qualityMax ∧ 1 ≤ s.maxAttempts ∧
  s.pendingPath ∈ s.tempPaths ∧
  (∀ p ∈ s.disk, p ∈ s.tempPaths) ∧
  (∀ p ∈ s.tempPaths, p < s.nextId) ∧
  phaseInvAt s.phase s

/-- Oracle for the concrete cancellation run: quality 1 encodes to 2 bytes,
every other quality to 10 bytes. -/
def envC1 : Env where
  encSize := fun x => if x = 1 then 2 else 10
  encOk := fun _ => true
  statOk := fun _ => true
  replaceOk := true

/-- The state of the `envC1` run (quality 3, target 5, destination occupied)
after the two probe completions: the single Refine attempt (quality 2) is in
flight. -/
def sC1 : SizeSearchState where
  targetBytes := 5
  qualityMin := 1
  qualityMax := 3
  phase := .binary
  low := 2
  high := 2
  attempt := 1
  maxAttempts := 12
  best := some ⟨1, 2, 1⟩
  tempPaths := [0, 1, 2]
  disk := [1, 2]
  finalContent := some .original
  pendingPath := 2
  pendingQ := 2
  nextId := 3
  launched := 3
  qualities := [3, 1, 2]

/-- The recorded best result of `sC1`. -/
def bestC1 : BestResult where
  quality := 1
  sizeBytes := 2
  tempPath := 1

/-- Oracle that reports 10 bytes at every quality. -/
def envC2 : Env where
  encSize := fun _ => 10
  encOk := fun _ => true
  statOk := fun _ => true
  replaceOk := true

/-- Terminal report of the `envC2` run with quality 1 and target 7: the
degenerate range `quality_min = quality_max = 1` still launches two attempts
when the probe exceeds the target. -/
def fC2 : FinalReport where
  outcome := .success 1 10 .unattainableLowestUsed
  disk := []
  finalContent := some (.committed 1)
  launched := 2
  qualities := [1, 1]

/-- Identity-size oracle: quality x encodes to exactly x bytes. -/
def envC3 : Env where
  encSize := fun x => x
  encOk := fun _ => true
  statOk := fun _ => true
  replaceOk := true

/-- Terminal report of the `envC3` run with quality 8 and target 5: the
binary search commits quality 5 after five attempts. -/
def fC3 : FinalReport where
  outcome := .success 5 5 .intervalExhausted
  disk := []
  finalContent := some (.committed 5)
  launched := 5
  qualities := [8, 1, 4, 6, 5]

/-- Terminal report of the `envC2` run with quality 1 and target 5: quality 1
is attempted twice. -/
def fC6 : FinalReport where
  outcome := .success 1 10 .unattainableLowestUsed
  disk := []
  finalContent := some (.committed 1)
  launched := 2
  qualities := [1, 1]

/-- Oracle whose first attempt already meets the target but whose promotion
(`Path.replace`) fails. -/
def envC7 : Env where
  encSize := fun _ => 3
  encOk := fun _ => true
  statOk := fun _ => true
  replaceOk := false

/-- Terminal report of the `envC7` run with quality 9 and target 5: the run
fails at promotion and the best temp artifact has been deleted. -/
def fC7 : FinalReport where
  outcome := .failed .replaceFailed
  disk := []
  finalContent := none
  launched := 1
  qualities := [9]

theorem mem_of_mem_unlink {l : List Nat} {x p : Nat} (h : p ∈ unlink l x) : p ∈ l :=
  (List.mem_filter.mp h).1

theorem unlink_singleton (a : Nat) : unlink [a] a = [] := by
  simp [unlink]

theorem unlink_pair_right {a b : Nat} (hab : a ≠ b) : unlink [a, b] b = [a] := by
  simp [unlink, hab]

theorem unlink_pair_left {a b : Nat} (hab : a ≠ b) : unlink [a, b] a = [b] := by
  simp [unlink, Ne.symm hab]

theorem cleanupTemps_eq_nil {s : SizeSearchState}
    (h : ∀ p ∈ s.disk, p ∈ s.tempPaths) : cleanupTemps s = [] := by
  refine List.filter_eq_nil_iff.mpr fun a ha => ?_
  simp [h a ha]

theorem inv_initState (q t : Nat) (d : Bool) : inv (initState q t d) := by
  refine ⟨rfl, ?_, ?_, ?_, ?_, ?_, ?_⟩ <;>
    simp [initState, launchAttempt, phaseInvAt, le_max_left]

theorem inv_step {env : Env} {s s1 : SizeSearchState} (hs : inv s)
    (h : step env s = Sum.inl s1) : inv s1 := by
  obtain ⟨hqmin, hqmax, hmaxA, hpend, hdiskT, hfresh, hphase⟩ := hs
  unfold step at h
  by_cases henc : env.encOk s.pendingQ = false
  · rw [if_pos henc] at h; exact Sum.noConfusion h
  rw [if_neg henc] at h
  by_cases hstat : env.statOk s.pendingQ = false
  · rw [if_pos hstat] at h; exact Sum.noConfusion h
  rw [if_neg hstat] at h
  split at h
  · -- phase test_max
    rename_i hp
    rw [hp] at hphase
    simp only [phaseInvAt] at hphase
    obtain ⟨hbest, hdisk, hpq, hatt, hlaunch, hquals⟩ := hphase
    split at h
    · exact Sum.noConfusion h
    rename_i hsz
    injection h with h1
    subst h1
    refine ⟨hqmin, hqmax, hmaxA, ?_, ?_, ?_, ?_⟩
    · simp [launchAttempt]
    · intro p hpd
      simp only [launchAttempt, List.mem_append, List.mem_singleton] at hpd ⊢
      rcases hpd with hpd | hpd
      · exact Or.inl (hdiskT p (mem_of_mem_unlink hpd))
      · exact Or.inr hpd
    · intro p hpt
      simp only [launchAttempt, List.mem_append, List.mem_singleton] at hpt ⊢
      rcases hpt with hpt | hpt
      · exact Nat.lt_succ_of_lt (hfresh p hpt)
      · omega
    · refine ⟨hbest, ?_, rfl, hatt, ?_, ?_⟩
      · show unlink s.disk s.pendingPath ++ [s.nextId] = [s.nextId]
        rw [hdisk, unlink_singleton]
        rfl
      · show s.launched + 1 = 2
        omega
      · show s.qualities ++ [s.qualityMin] = [s.qualityMax, s.qualityMin]
        rw [hquals]
        rfl
  · -- phase test_min
    rename_i hp
    rw [hp] at hphase
    simp only [phaseInvAt] at hphase
    obtain ⟨hbest, hdisk, hpq, hatt, hlaunch, hquals⟩ := hphase
    split at h
    · exact Sum.noConfusion h
    rename_i hsz
    split at h
    · exact Sum.noConfusion h
    rename_i hgap
    injection h with h1
    subst h1
    have hfreshPend : s.pendingPath < s.nextId := hfresh _ hpend
    rw [not_lt] at hsz hgap
    refine ⟨hqmin, hqmax, hmaxA, ?_, ?_, ?_, ?_⟩
    · simp [startNextBinaryAttempt, launchAttempt]
    · intro p hpd
      simp only [startNextBinaryAttempt, launchAttempt, List.mem_append,
        List.mem_singleton] at hpd ⊢
      rcases hpd with hpd | hpd
      · exact Or.inl (hdiskT p hpd)
      · exact Or.inr hpd
    · intro p hpt
      simp only [startNextBinaryAttempt, launchAttempt, List.mem_append,
        List.mem_singleton] at hpt ⊢
      rcases hpt with hpt | hpt
      · exact Nat.lt_succ_of_lt (hfresh p hpt)
      · omega
    · refine ⟨⟨s.pendingQ, env.encSize s.pendingQ, s.pendingPath⟩, [], rfl,
        ?_, ?_, ?_, ?_, ?_, ?_, ?_, ?_, ?_, ?_, ?_, ?_, ?_, ?_, ?_, ?_⟩
      · show s.disk ++ [s.nextId] = [s.pendingPath, s.nextId]
        rw [hdisk]
        rfl
      · show s.pendingPath ≠ s.nextId
        omega
      · show s.pendingPath ∈ s.tempPaths ++ [s.nextId]
        exact List.mem_append.mpr (Or.inl hpend)
      · exact Or.inl hsz
      · show s.pendingQ + 1 = s.qualityMin + 1
        omega
      · show 1 ≤ s.pendingQ
        omega
      · show s.launched + 1 = 2 + (s.attempt + 1)
        omega
      · show 1 ≤ s.attempt + 1
        omega
      · show s.attempt + 1 ≤ s.maxAttempts
        omega
      · show s.qualityMin + 1 ≤ s.qualityMin + 1
        omega
      · show s.qualityMin + 1 ≤ s.qualityMax - 1
        exact hgap
      · show s.qualityMax - 1 + 1 ≤ s.qualityMax
        omega
      · rfl
      · show s.qualities ++ [(s.qualityMin + 1 + (s.qualityMax - 1)) / 2] =
          s.qualityMax :: s.qualityMin ::
            ([] ++ [(s.qualityMin + 1 + (s.qualityMax - 1)) / 2])
        rw [hquals]
        rfl
      · exact List.nodup_nil
      · intro x hx
        exact absurd hx (List.not_mem_nil x)
  · -- phase binary
    rename_i hp
    rw [hp] at hphase
    simp only [phaseInvAt] at hphase
    obtain ⟨b, bqs, hb, hdisk, hbp, hbmem, hbsz, hblow, hbq1, hlaunch, hatt1,
      hattM, hlowq, hlh, hhq, hpq, hquals, hnodup, hbqs⟩ := hphase
    have hmidlow : s.low ≤ s.pendingQ := by omega
    have hmidhigh : s.pendingQ ≤ s.high := by omega
    have hfreshPend : s.pendingPath < s.nextId := hfresh _ hpend
    have hfreshBest : b.tempPath < s.nextId := hfresh _ hbmem
    have hqnotbqs : s.pendingQ ∉ bqs := by
      intro hmem
      rcases (hbqs _ hmem).1 with hx | hx <;> omega
    have hnodup2 : (bqs ++ [s.pendingQ]).Nodup := by
      refine List.Nodup.append hnodup (List.nodup_singleton _) ?_
      simpa [List.disjoint_singleton] using hqnotbqs
    have hdrop : dropSupersededBest s = [s.pendingPath] := by
      rw [dropSupersededBest, hb]
      simp only [if_neg hbp]
      rw [hdisk, unlink_pair_left hbp]
    split at h
    · -- candidate adopted
      rename_i hadopt
      rw [adoptsCandidate, hb] at hadopt
      simp only [Bool.and_eq_true, decide_eq_true_eq] at hadopt
      unfold binaryFinishOrContinue at h
      split at h
      · exact Sum.noConfusion h
      rename_i hP1
      split at h
      · exact Sum.noConfusion h
      rename_i hP2
      injection h with h1
      subst h1
      rw [not_lt] at hP1
      rw [not_le] at hP2
      have hP1a : s.pendingQ + 1 ≤ s.high := hP1
      have hP2a : s.attempt < s.maxAttempts := hP2
      refine ⟨hqmin, hqmax, hmaxA, ?_, ?_, ?_, ?_⟩
      · simp [startNextBinaryAttempt, launchAttempt]
      · intro p hpd
        simp only [startNextBinaryAttempt, launchAttempt, List.mem_append,
          List.mem_singleton, hdrop] at hpd ⊢
        rcases hpd with hpd | hpd
        · exact Or.inl (hdiskT p (by rw [hdisk]; simp [hpd]))
        · exact Or.inr hpd
      · intro p hpt
        simp only [startNextBinaryAttempt, launchAttempt, List.mem_append,
          List.mem_singleton] at hpt ⊢
        rcases hpt with hpt | hpt
        · exact Nat.lt_succ_of_lt (hfresh p hpt)
        · omega
      · rw [hp]
        refine ⟨⟨s.pendingQ, env.encSize s.pendingQ, s.pendingPath⟩,
          bqs ++ [s.pendingQ], rfl,
          ?_, ?_, ?_, ?_, ?_, ?_, ?_, ?_, ?_, ?_, ?_, ?_, ?_, ?_, ?_, ?_⟩
        · show dropSupersededBest s ++ [s.nextId] = [s.pendingPath, s.nextId]
          rw [hdrop]
          rfl
        · show s.pendingPath ≠ s.nextId
          omega
        · show s.pendingPath ∈ s.tempPaths ++ [s.nextId]
          exact List.mem_append.mpr (Or.inl hpend)
        · exact Or.inl hadopt.1
        · rfl
        · show 1 ≤ s.pendingQ
          omega
        · show s.launched + 1 = 2 + (s.attempt + 1)
          omega
        · show 1 ≤ s.attempt + 1
          omega
        · show s.attempt + 1 ≤ s.maxAttempts
          omega
        · show s.qualityMin + 1 ≤ s.pendingQ + 1
          omega
        · show s.pendingQ + 1 ≤ s.high
          exact hP1
        · show s.high + 1 ≤ s.qualityMax
          exact hhq
        · rfl
        · show s.qualities ++ [(s.pendingQ + 1 + s.high) / 2] =
            s.qualityMax :: s.qualityMin ::
              (bqs ++ [s.pendingQ] ++ [(s.pendingQ + 1 + s.high) / 2])
          rw [hquals]
          simp
        · exact hnodup2
        · show ∀ x ∈ bqs ++ [s.pendingQ],
            (x < s.pendingQ + 1 ∨ s.high < x) ∧ s.qualityMin < x ∧ x < s.qualityMax
          intro x hx
          rcases List.mem_append.mp hx with hx | hx
          · have hx2 := hbqs x hx
            refine ⟨?_, hx2.2⟩
            rcases hx2.1 with h1 | h1
            · exact Or.inl (by omega)
            · exact Or.inr h1
          · have hx2 : x = s.pendingQ := List.mem_singleton.mp hx
            subst hx2
            exact ⟨Or.inl (by omega), by omega, by omega⟩
    · -- candidate rejected
      rename_i hrej
      unfold binaryFinishOrContinue at h
      split at h
      · exact Sum.noConfusion h
      rename_i hP1
      split at h
      · exact Sum.noConfusion h
      rename_i hP2
      injection h with h1
      subst h1
      rw [not_lt] at hP1
      rw [not_le] at hP2
      have hP1a : s.low ≤ s.pendingQ - 1 := hP1
      have hP2a : s.attempt < s.maxAttempts := hP2
      refine ⟨hqmin, hqmax, hmaxA, ?_, ?_, ?_, ?_⟩
      · simp [startNextBinaryAttempt, launchAttempt]
      · intro p hpd
        simp only [startNextBinaryAttempt, launchAttempt, List.mem_append,
          List.mem_singleton] at hpd ⊢
        rcases hpd with hpd | hpd
        · exact Or.inl (hdiskT p (mem_of_mem_unlink hpd))
        · exact Or.inr hpd
      · intro p hpt
        simp only [startNextBinaryAttempt, launchAttempt, List.mem_append,
          List.mem_singleton] at hpt ⊢
        rcases hpt with hpt | hpt
        · exact Nat.lt_succ_of_lt (hfresh p hpt)
        · omega
      · rw [hp]
        refine ⟨b, bqs ++ [s.pendingQ], hb,
          ?_, ?_, ?_, ?_, ?_, ?_, ?_, ?_, ?_, ?_, ?_, ?_, ?_, ?_, ?_, ?_⟩
        · show unlink s.disk s.pendingPath ++ [s.nextId] = [b.tempPath, s.nextId]
          rw [hdisk, unlink_pair_right hbp]
          rfl
        · show b.tempPath ≠ s.nextId
          omega
        · show b.tempPath ∈ s.tempPaths ++ [s.nextId]
          exact List.mem_append.mpr (Or.inl hbmem)
        · exact hbsz
        · exact hblow
        · exact hbq1
        · show s.launched + 1 = 2 + (s.attempt + 1)
          omega
        · show 1 ≤ s.attempt + 1
          omega
        · show s.attempt + 1 ≤ s.maxAttempts
          omega
        · exact hlowq
        · show s.low ≤ s.pendingQ - 1
          exact hP1
        · show s.pendingQ - 1 + 1 ≤ s.qualityMax
          omega
        · rfl
        · show s.qualities ++ [(s.low + (s.pendingQ - 1)) / 2] =
            s.qualityMax :: s.qualityMin ::
              (bqs ++ [s.pendingQ] ++ [(s.low + (s.pendingQ - 1)) / 2])
          rw [hquals]
          simp
        · exact hnodup2
        · show ∀ x ∈ bqs ++ [s.pendingQ],
            (x < s.low ∨ s.pendingQ - 1 < x) ∧ s.qualityMin < x ∧ x < s.qualityMax
          intro x hx
          rcases List.mem_append.mp hx with hx | hx
          · have hx2 := hbqs x hx
            refine ⟨?_, hx2.2⟩
            rcases hx2.1 with h1 | h1
            · exact Or.inl h1
            · exact Or.inr (by omega)
          · have hx2 : x = s.pendingQ := List.mem_singleton.mp hx
            subst hx2
            exact ⟨Or.inr (by omega), by omega, by omega⟩

theorem step_inl_fields {env : Env} {s s1 : SizeSearchState}
    (h : step env s = Sum.inl s1) :
    s1.targetBytes = s.targetBytes ∧ s1.qualityMin = s.qualityMin ∧
    s1.qualityMax = s.qualityMax ∧ s1.maxAttempts = s.maxAttempts ∧
    s1.launched = s.launched + 1 := by
  unfold step at h
  split at h
  · exact Sum.noConfusion h
  split at h
  · exact Sum.noConfusion h
  split at h
  · split at h
    · exact Sum.noConfusion h
    injection h with h1
    subst h1
    exact ⟨rfl, rfl, rfl, rfl, rfl⟩
  · split at h
    · exact Sum.noConfusion h
    split at h
    · exact Sum.noConfusion h
    injection h with h1
    subst h1
    exact ⟨rfl, rfl, rfl, rfl, rfl⟩
  · split at h <;>
    · unfold binaryFinishOrContinue at h
      split at h
      · exact Sum.noConfusion h
      split at h
      · exact Sum.noConfusion h
      injection h with h1
      subst h1
      exact ⟨rfl, rfl, rfl, rfl, rfl⟩

theorem stepN_inv {env : Env} :
    ∀ (n : Nat) (s s1 : SizeSearchState), inv s → stepN env n s = some s1 → inv s1
  | 0, s, s1, hs, h => by
    rw [stepN] at h
    injection h with h1
    exact h1 ▸ hs
  | n + 1, s, s1, hs, h => by
    rw [stepN] at h
    rcases h2 : step env s with s2 | f
    · simp only [h2] at h
      exact stepN_inv n s2 s1 (inv_step hs h2) h
    · simp only [h2] at h
      exact Option.noConfusion h

theorem applyBest_props {env : Env} {s : SizeSearchState} {note : AttainNote}
    {b : BestResult} (hb : s.best = some b) (hq : 1 ≤ b.quality)
    (hdiskT : ∀ p ∈ s.disk, p ∈ s.tempPaths) :
    (applyBest env s note).disk = [] ∧
    (applyBest env s note).launched = s.launched ∧
    (applyBest env s note).qualities = s.qualities ∧
    (applyBest env s note).outcome ≠ Outcome.failed FailReason.noUsableOutput ∧
    (∀ bq bsz note2, (applyBest env s note).outcome = Outcome.success bq bsz note2 →
      bq = b.quality ∧ bsz = b.sizeBytes) := by
  simp only [applyBest, hb]
  have hq0 : ¬ b.quality = 0 := by omega
  rw [if_neg hq0]
  by_cases hrep : env.replaceOk
  · rw [if_pos hrep]
    refine ⟨?_, rfl, rfl, by simp, ?_⟩
    · refine List.filter_eq_nil_iff.mpr fun a ha => ?_
      simp [hdiskT a (mem_of_mem_unlink ha)]
    · intro bq bsz note2 hout
      simp only [Outcome.success.injEq] at hout
      exact ⟨hout.1.symm, hout.2.1.symm⟩
  · rw [if_neg hrep]
    refine ⟨cleanupTemps_eq_nil hdiskT, rfl, rfl, by simp [failReport], ?_⟩
    intro bq bsz note2 hout
    simp [failReport] at hout

theorem inv_launched_le {s : SizeSearchState} (hs : inv s) :
    s.launched ≤ 2 + s.maxAttempts := by
  obtain ⟨hqmin, hqmax, hmaxA, hpend, hdiskT, hfresh, hphase⟩ := hs
  cases hp : s.phase
  · rw [hp] at hphase
    simp only [phaseInvAt] at hphase
    omega
  · rw [hp] at hphase
    simp only [phaseInvAt] at hphase
    omega
  · rw [hp] at hphase
    simp only [phaseInvAt] at hphase
    obtain ⟨b, bqs, hphase⟩ := hphase
    omega

theorem step_inr_props {env : Env} {s : SizeSearchState} {f : FinalReport}
    (hs : inv s) (h : step env s = Sum.inr f) :
    f.disk = [] ∧ f.launched = s.launched ∧ f.qualities = s.qualities ∧
    f.launched ≤ 2 + s.maxAttempts ∧
    f.outcome ≠ Outcome.failed FailReason.noUsableOutput ∧
    (∀ bq bsz note, f.outcome = Outcome.success bq bsz note →
      (bsz ≤ s.targetBytes ∨ bq = s.qualityMin) ∧ 1 ≤ bq) := by
  have hlaunchLe : s.launched ≤ 2 + s.maxAttempts := inv_launched_le hs
  obtain ⟨hqmin, hqmax, hmaxA, hpend, hdiskT, hfresh, hphase⟩ := hs
  unfold step at h
  split at h
  · -- encode failed
    injection h with h1
    subst h1
    refine ⟨cleanupTemps_eq_nil hdiskT, rfl, rfl, hlaunchLe,
      by simp [failReport], ?_⟩
    intro bq bsz note hout
    simp [failReport] at hout
  split at h
  · -- stat failed
    injection h with h1
    subst h1
    refine ⟨cleanupTemps_eq_nil hdiskT, rfl, rfl, hlaunchLe,
      by simp [failReport], ?_⟩
    intro bq bsz note hout
    simp [failReport] at hout
  split at h
  · -- phase test_max
    rename_i hp
    rw [hp] at hphase
    simp only [phaseInvAt] at hphase
    obtain ⟨hbest, hdisk, hpq, hatt, hlaunch, hquals⟩ := hphase
    split at h
    · rename_i hsz
      injection h with h1
      subst h1
      obtain ⟨hd, hl, hql, hno, hsucc⟩ :=
        @applyBest_props env
          { s with
            best := some ⟨s.pendingQ, env.encSize s.pendingQ, s.pendingPath⟩ }
          AttainNote.metAtMaxQuality
          ⟨s.pendingQ, env.encSize s.pendingQ, s.pendingPath⟩
          rfl (by show 1 ≤ s.pendingQ; omega) hdiskT
      refine ⟨hd, hl, hql, by rw [hl]; exact hlaunchLe, hno, ?_⟩
      intro bq bsz note hout
      obtain ⟨hbq2, hbsz2⟩ := hsucc bq bsz note hout
      have hbq3 : bq = s.pendingQ := hbq2
      have hbsz3 : bsz = env.encSize s.pendingQ := hbsz2
      refine ⟨Or.inl ?_, by omega⟩
      rw [hbsz3]
      exact hsz
    · exact Sum.noConfusion h
  · -- phase test_min
    rename_i hp
    rw [hp] at hphase
    simp only [phaseInvAt] at hphase
    obtain ⟨hbest, hdisk, hpq, hatt, hlaunch, hquals⟩ := hphase
    split at h
    · rename_i hsz
      injection h with h1
      subst h1
      obtain ⟨hd, hl, hql, hno, hsucc⟩ :=
        @applyBest_props env
          { s with
            best := some ⟨s.pendingQ, env.encSize s.pendingQ, s.pendingPath⟩ }
          AttainNote.unattainableLowestUsed
          ⟨s.pendingQ, env.encSize s.pendingQ, s.pendingPath⟩
          rfl (by show 1 ≤ s.pendingQ; omega) hdiskT
      refine ⟨hd, hl, hql, by rw [hl]; exact hlaunchLe, hno, ?_⟩
      intro bq bsz note hout
      obtain ⟨hbq2, hbsz2⟩ := hsucc bq bsz note hout
      have hbq3 : bq = s.pendingQ := hbq2
      exact ⟨Or.inr (by omega), by omega⟩
    · split at h
      · rename_i hgap
        injection h with h1
        subst h1
        obtain ⟨hd, hl, hql, hno, hsucc⟩ :=
          @applyBest_props env
            { s with
              best := some ⟨s.pendingQ, env.encSize s.pendingQ, s.pendingPath⟩
              phase := .binary
              low := s.qualityMin + 1
              high := s.qualityMax - 1 }
            AttainNote.metAtMinNoGap
            ⟨s.pendingQ, env.encSize s.pendingQ, s.pendingPath⟩
            rfl (by show 1 ≤ s.pendingQ; omega) hdiskT
        refine ⟨hd, hl, hql, by rw [hl]; exact hlaunchLe, hno, ?_⟩
        intro bq bsz note hout
        obtain ⟨hbq2, hbsz2⟩ := hsucc bq bsz note hout
        have hbq3 : bq = s.pendingQ := hbq2
        exact ⟨Or.inr (by omega), by omega⟩
      · exact Sum.noConfusion h
  · -- phase binary
    rename_i hp
    rw [hp] at hphase
    simp only [phaseInvAt] at hphase
    obtain ⟨b, bqs, hb, hdisk, hbp, hbmem, hbszInv, hblow, hbq1, hlaunch,
      hatt1, hattM, hlowq, hlh, hhq, hpq, hquals, hnodup, hbqs⟩ := hphase
    have hdrop : dropSupersededBest s = [s.pendingPath] := by
      rw [dropSupersededBest, hb]
      simp only [if_neg hbp]
      rw [hdisk, unlink_pair_left hbp]
    have hdiskT2 : ∀ p ∈ dropSupersededBest s, p ∈ s.tempPaths := by
      rw [hdrop]
      intro p hp2
      rw [List.mem_singleton] at hp2
      subst hp2
      exact hpend
    have hdiskT3 : ∀ p ∈ unlink s.disk s.pendingPath, p ∈ s.tempPaths :=
      fun p hp2 => hdiskT p (mem_of_mem_unlink hp2)
    have hbb : 1 ≤ s.pendingQ := by omega
    split at h
    · -- candidate adopted
      rename_i hadopt
      rw [adoptsCandidate, hb] at hadopt
      simp only [Bool.and_eq_true, decide_eq_true_eq] at hadopt
      unfold binaryFinishOrContinue at h
      split at h
      · injection h with h1
        subst h1
        obtain ⟨hd, hl, hql, hno, hsucc⟩ :=
          @applyBest_props env
            { s with
              disk := dropSupersededBest s
              best := some ⟨s.pendingQ, env.encSize s.pendingQ, s.pendingPath⟩
              low := s.pendingQ + 1 }
            AttainNote.intervalExhausted
            ⟨s.pendingQ, env.encSize s.pendingQ, s.pendingPath⟩
            rfl hbb hdiskT2
        refine ⟨hd, hl, hql, by rw [hl]; exact hlaunchLe, hno, ?_⟩
        intro bq bsz note hout
        obtain ⟨hbq2, hbsz2⟩ := hsucc bq bsz note hout
        have hbq3 : bq = s.pendingQ := hbq2
        have hbsz3 : bsz = env.encSize s.pendingQ := hbsz2
        refine ⟨Or.inl ?_, by omega⟩
        rw [hbsz3]
        exact hadopt.1
      · split at h
        · injection h with h1
          subst h1
          obtain ⟨hd, hl, hql, hno, hsucc⟩ :=
            @applyBest_props env
              { s with
                disk := dropSupersededBest s
                best := some ⟨s.pendingQ, env.encSize s.pendingQ, s.pendingPath⟩
                low := s.pendingQ + 1 }
              AttainNote.maxAttemptsReached
              ⟨s.pendingQ, env.encSize s.pendingQ, s.pendingPath⟩
              rfl hbb hdiskT2
          refine ⟨hd, hl, hql, by rw [hl]; exact hlaunchLe, hno, ?_⟩
          intro bq bsz note hout
          obtain ⟨hbq2, hbsz2⟩ := hsucc bq bsz note hout
          have hbq3 : bq = s.pendingQ := hbq2
          have hbsz3 : bsz = env.encSize s.pendingQ := hbsz2
          refine ⟨Or.inl ?_, by omega⟩
          rw [hbsz3]
          exact hadopt.1
        · exact Sum.noConfusion h
    · -- candidate rejected
      rename_i hrej
      unfold binaryFinishOrContinue at h
      split at h
      · injection h with h1
        subst h1
        obtain ⟨hd, hl, hql, hno, hsucc⟩ :=
          @applyBest_props env
            { s with
              high := s.pendingQ - 1
              disk := unlink s.disk s.pendingPath }
            AttainNote.intervalExhausted b hb hbq1 hdiskT3
        refine ⟨hd, hl, hql, by rw [hl]; exact hlaunchLe, hno, ?_⟩
        intro bq bsz note hout
        obtain ⟨hbq2, hbsz2⟩ := hsucc bq bsz note hout
        subst hbq2
        subst hbsz2
        exact ⟨hbszInv, hbq1⟩
      · split at h
        · injection h with h1
          subst h1
          obtain ⟨hd, hl, hql, hno, hsucc⟩ :=
            @applyBest_props env
              { s with
                high := s.pendingQ - 1
                disk := unlink s.disk s.pendingPath }
              AttainNote.maxAttemptsReached b hb hbq1 hdiskT3
          refine ⟨hd, hl, hql, by rw [hl]; exact hlaunchLe, hno, ?_⟩
          intro bq bsz note hout
          obtain ⟨hbq2, hbsz2⟩ := hsucc bq bsz note hout
          subst hbq2
          subst hbsz2
          exact ⟨hbszInv, hbq1⟩
        · exact Sum.noConfusion h

theorem run_props {env : Env} :
    ∀ (fuel : Nat) (s : SizeSearchState) (f : FinalReport), inv s →
      run env fuel s = some f →
      f.disk = [] ∧ f.launched ≤ 2 + s.maxAttempts ∧
      f.outcome ≠ Outcome.failed FailReason.noUsableOutput ∧
      (∀ bq bsz note, f.outcome = Outcome.success bq bsz note →
        (bsz ≤ s.targetBytes ∨ bq = s.qualityMin) ∧ 1 ≤ bq)
  | 0, s, f, hs, h => by
    rw [run] at h
    exact Option.noConfusion h
  | fuel + 1, s, f, hs, h => by
    rw [run] at h
    rcases h2 : step env s with s2 | f2
    · simp only [h2] at h
      obtain ⟨ht, hqm, hqx, hma, hl⟩ := step_inl_fields h2
      obtain ⟨hd, hla, hno, hsucc⟩ := run_props fuel s2 f (inv_step hs h2) h
      refine ⟨hd, by omega, hno, ?_⟩
      intro bq bsz note hout
      obtain ⟨hdisj, hbq⟩ := hsucc bq bsz note hout
      rw [ht, hqm] at hdisj
      exact ⟨hdisj, hbq⟩
    · simp only [h2] at h
      injection h with h1
      subst h1
      obtain ⟨hd, hl, hql, hla, hno, hsucc⟩ := step_inr_props hs h2
      exact ⟨hd, hla, hno, hsucc⟩

theorem run_terminates {env : Env} :
    ∀ (fuel : Nat) (s : SizeSearchState), inv s →
      s.maxAttempts + 3 ≤ fuel + s.launched → ∃ f, run env fuel s = some f
  | 0, s, hs, hle => by
    have hll := inv_launched_le hs
    exact absurd hle (by omega)
  | fuel + 1, s, hs, hle => by
    rw [run]
    rcases h2 : step env s with s2 | f2
    · obtain ⟨ht, hqm, hqx, hma, hl⟩ := step_inl_fields h2
      obtain ⟨f, hf⟩ := run_terminates fuel s2 (inv_step hs h2) (by omega)
      exact ⟨f, by simp only [h2]; exact hf⟩
    · exact ⟨f2, by simp only [h2]⟩

theorem inv_qualities_nodup {s : SizeSearchState} (hs : inv s)
    (hlt : s.qualityMin < s.qualityMax) : s.qualities.Nodup := by
  obtain ⟨hqmin, hqmax, hmaxA, hpend, hdiskT, hfresh, hphase⟩ := hs
  cases hp : s.phase
  · rw [hp] at hphase
    simp only [phaseInvAt] at hphase
    rw [hphase.2.2.2.2.2]
    exact List.nodup_singleton _
  · rw [hp] at hphase
    simp only [phaseInvAt] at hphase
    rw [hphase.2.2.2.2.2]
    refine List.nodup_cons.mpr ⟨?_, List.nodup_singleton _⟩
    rw [List.mem_singleton]
    omega
  · rw [hp] at hphase
    simp only [phaseInvAt] at hphase
    obtain ⟨b, bqs, hb, hdisk, hbp, hbmem, hbsz, hblow, hbq1, hlaunch, hatt1,
      hattM, hlowq, hlh, hhq, hpq, hquals, hnodup, hbqs⟩ := hphase
    rw [hquals]
    have hmidlow : s.low ≤ s.pendingQ := by omega
    have hmidhigh : s.pendingQ ≤ s.high := by omega
    refine List.nodup_cons.mpr ⟨?_, List.nodup_cons.mpr ⟨?_, ?_⟩⟩
    · intro hmem
      rcases List.mem_cons.mp hmem with h1 | hmem2
      · omega
      rcases List.mem_append.mp hmem2 with h2 | h3
      · have hx := hbqs _ h2
        omega
      · rw [List.mem_singleton] at h3
        omega
    · intro hmem
      rcases List.mem_append.mp hmem with h2 | h3
      · have hx := hbqs _ h2
        omega
      · rw [List.mem_singleton] at h3
        omega
    · refine List.Nodup.append hnodup (List.nodup_singleton _) ?_
      rw [List.disjoint_singleton]
      intro hmem
      have hx := hbqs _ hmem
      omega

theorem run_qualities_nodup {env : Env} :
    ∀ (fuel : Nat) (s : SizeSearchState) (f : FinalReport), inv s →
      s.qualityMin < s.qualityMax → run env fuel s = some f →
      f.qualities.Nodup
  | 0, s, f, hs, hlt, h => by
    rw [run] at h
    exact Option.noConfusion h
  | fuel + 1, s, f, hs, hlt, h => by
    rw [run] at h
    rcases h2 : step env s with s2 | f2
    · simp only [h2] at h
      obtain ⟨ht, hqm, hqx, hma, hl⟩ := step_inl_fields h2
      exact run_qualities_nodup fuel s2 f (inv_step hs h2)
        (by rw [hqm, hqx]; exact hlt) h
    · simp only [h2] at h
      injection h with h1
      subst h1
      obtain ⟨hd, hl, hql, hla, hno, hsucc⟩ := step_inr_props hs h2
      rw [hql]
      exact inv_qualities_nodup hs hlt

theorem inv_disk_shape {s : SizeSearchState} (hs : inv s) :
    s.disk = [s.pendingPath] ∨
      ∃ b, s.best = some b ∧ s.disk = [b.tempPath, s.pendingPath] := by
  obtain ⟨hqmin, hqmax, hmaxA, hpend, hdiskT, hfresh, hphase⟩ := hs
  cases hp : s.phase
  · rw [hp] at hphase
    simp only [phaseInvAt] at hphase
    exact Or.inl hphase.2.1
  · rw [hp] at hphase
    simp only [phaseInvAt] at hphase
    exact Or.inl hphase.2.1
  · rw [hp] at hphase
    simp only [phaseInvAt] at hphase
    obtain ⟨b, bqs, hb, hdisk, hphase⟩ := hphase
    exact Or.inr ⟨b, hb, hdisk⟩

theorem inv_best_quality_pos {s : SizeSearchState} (hs : inv s)
    {b : BestResult} (hb : s.best = some b) : 1 ≤ b.quality := by
  obtain ⟨hqmin, hqmax, hmaxA, hpend, hdiskT, hfresh, hphase⟩ := hs
  cases hp : s.phase
  · rw [hp] at hphase
    simp only [phaseInvAt] at hphase
    rw [hphase.1] at hb
    exact Option.noConfusion hb
  · rw [hp] at hphase
    simp only [phaseInvAt] at hphase
    rw [hphase.1] at hb
    exact Option.noConfusion hb
  · rw [hp] at hphase
    simp only [phaseInvAt] at hphase
    obtain ⟨b2, bqs, hb2, hdisk, hbp, hbmem, hbsz, hblow, hbq2, hphase⟩ := hphase
    rw [hb2] at hb
    injection hb with hb
    rw [hb] at hbq2
    exact hbq2

theorem cancelRun_disk {s : SizeSearchState} (hs : inv s) :
    (cancelRun s).disk = [] := by
  show unlink (cleanupTemps s) s.pendingPath = []
  rw [cleanupTemps_eq_nil hs.2.2.2.2.1]
  rfl

theorem step_testMax_eq {env : Env} {s : SizeSearchState}
    (hp : s.phase = Phase.testMax)
    (henc : env.encOk s.pendingQ = true) (hstat : env.statOk s.pendingQ = true) :
    step env s =
      if env.encSize s.pendingQ ≤ s.targetBytes then
        Sum.inr (applyBest env
          { s with best := some ⟨s.pendingQ, env.encSize s.pendingQ, s.pendingPath⟩ }
          .metAtMaxQuality)
      else
        Sum.inl (launchAttempt
          { s with disk := unlink s.disk s.pendingPath, phase := .testMin }
          s.qualityMin) := by
  unfold step
  rw [if_neg (by rw [henc]; simp), if_neg (by rw [hstat]; simp)]
  split
  · rfl
  · rename_i h2
    rw [hp] at h2
    exact Phase.noConfusion h2
  · rename_i h2
    rw [hp] at h2
    exact Phase.noConfusion h2

theorem step_testMin_eq {env : Env} {s : SizeSearchState}
    (hp : s.phase = Phase.testMin)
    (henc : env.encOk s.pendingQ = true) (hstat : env.statOk s.pendingQ = true) :
    step env s =
      if s.targetBytes < env.encSize s.pendingQ then
        Sum.inr (applyBest env
          { s with best := some ⟨s.pendingQ, env.encSize s.pendingQ, s.pendingPath⟩ }
          .unattainableLowestUsed)
      else
        if s.qualityMax - 1 < s.qualityMin + 1 then
          Sum.inr (applyBest env
            { s with
              best := some ⟨s.pendingQ, env.encSize s.pendingQ, s.pendingPath⟩
              phase := .binary
              low := s.qualityMin + 1
              high := s.qualityMax - 1 }
            .metAtMinNoGap)
        else
          Sum.inl (startNextBinaryAttempt
            { s with
              best := some ⟨s.pendingQ, env.encSize s.pendingQ, s.pendingPath⟩
              phase := .binary
              low := s.qualityMin + 1
              high := s.qualityMax - 1 }) := by
  unfold step
  rw [if_neg (by rw [henc]; simp), if_neg (by rw [hstat]; simp)]
  split
  · rename_i h2
    rw [hp] at h2
    exact Phase.noConfusion h2
  · rfl
  · rename_i h2
    rw [hp] at h2
    exact Phase.noConfusion h2

theorem step_binary_eq {env : Env} {s : SizeSearchState}
    (hp : s.phase = Phase.binary)
    (henc : env.encOk s.pendingQ = true) (hstat : env.statOk s.pendingQ = true) :
    step env s =
      if adoptsCandidate s (env.encSize s.pendingQ) s.pendingQ then
        binaryFinishOrContinue env
          { s with
            disk := dropSupersededBest s
            best := some ⟨s.pendingQ, env.encSize s.pendingQ, s.pendingPath⟩
            low := s.pendingQ + 1 }
      else
        binaryFinishOrContinue env
          { s with high := s.pendingQ - 1, disk := unlink s.disk s.pendingPath } := by
  unfold step
  rw [if_neg (by rw [henc]; simp), if_neg (by rw [hstat]; simp)]
  split
  · rename_i h2
    rw [hp] at h2
    exact Phase.noConfusion h2
  · rename_i h2
    rw [hp] at h2
    exact Phase.noConfusion h2
  · rfl

theorem applyBest_success {env : Env} {s : SizeSearchState} {b : BestResult}
    {note : AttainNote} (hb : s.best = some b) (hq : ¬ b.quality = 0)
    (hrep : env.replaceOk = true) :
    (applyBest env s note).outcome = Outcome.success b.quality b.sizeBytes note ∧
    (applyBest env s note).launched = s.launched := by
  simp only [applyBest, hb]
  rw [if_neg hq, if_pos hrep]
  exact ⟨rfl, rfl⟩

theorem refine_run {env : Env}
    (hmono : ∀ a b2, a ≤ b2 → env.encSize a ≤ env.encSize b2)
    (hok : ∀ x, env.encOk x = true) (hstat : ∀ x, env.statOk x = true)
    (hrep : env.replaceOk = true) :
    ∀ (len fuel : Nat) (s : SizeSearchState) (b : BestResult),
      inv s → s.phase = Phase.binary → s.best = some b →
      b.sizeBytes = env.encSize b.quality →
      env.encSize b.quality ≤ s.targetBytes →
      (∀ x, s.high < x → x ≤ s.qualityMax → s.targetBytes < env.encSize x) →
      (s.high + 1 - s.low) * 2 ^ (s.attempt - 1) ≤ s.qualityMax - 2 →
      Nat.clog 2 (s.qualityMax - 1) ≤ s.maxAttempts →
      s.high + 1 - s.low = len →
      s.maxAttempts + 1 ≤ fuel + s.attempt →
      ∃ f bq, run env fuel s = some f ∧
        committedQuality f = some bq ∧
        env.encSize bq ≤ s.targetBytes ∧ 1 ≤ bq ∧ bq ≤ s.qualityMax ∧
        (∀ x, bq < x → x ≤ s.qualityMax → s.targetBytes < env.encSize x) ∧
        ∃ a, f.launched = 2 + a ∧ 1 ≤ a ∧ 2 ^ (a - 1) ≤ s.qualityMax - 2 := by
  intro len
  induction len using Nat.strong_induction_on with
  | _ len ih =>
  intro fuel s b hs hp hb hbsize hbgood hbad hhalve hcap hlen hfuel
  obtain ⟨hqmin, hqmax, hmaxA, hpend, hdiskT, hfresh, hphase⟩ := hs
  rw [hp] at hphase
  simp only [phaseInvAt] at hphase
  obtain ⟨b2, bqs, hb2, hdisk, hbp, hbmem, hbszInv, hblow, hbq1, hlaunch,
    hatt1, hattM, hlowq, hlh, hhq, hpq, hquals, hnodup, hbqs⟩ := hphase
  rw [hb] at hb2
  injection hb2 with hb2
  subst hb2
  have hmidlow : s.low ≤ s.pendingQ := by omega
  have hmidhigh : s.pendingQ ≤ s.high := by omega
  have hlen1 : 1 ≤ len := by omega
  cases fuel with
  | zero => exact absurd hfuel (by omega)
  | succ fuel =>
  have hs' : inv s :=
    ⟨hqmin, hqmax, hmaxA, hpend, hdiskT, hfresh, by
      rw [hp]
      simp only [phaseInvAt]
      exact ⟨b, bqs, hb, hdisk, hbp, hbmem, hbszInv, hblow, hbq1, hlaunch,
        hatt1, hattM, hlowq, hlh, hhq, hpq, hquals, hnodup, hbqs⟩⟩
  have hstepEq := step_binary_eq hp (hok s.pendingQ) (hstat s.pendingQ)
  by_cases hA : env.encSize s.pendingQ ≤ s.targetBytes
  · -- size within target: candidate adopted
    have hadopt : adoptsCandidate s (env.encSize s.pendingQ) s.pendingQ = true := by
      simp only [adoptsCandidate, hb, Bool.and_eq_true, decide_eq_true_eq]
      exact ⟨hA, by omega⟩
    rw [if_pos hadopt] at hstepEq
    by_cases hA1 : s.high < s.pendingQ + 1
    · -- interval exhausted: new best is final
      have hfin : step env s = Sum.inr (applyBest env
          { s with
            disk := dropSupersededBest s
            best := some ⟨s.pendingQ, env.encSize s.pendingQ, s.pendingPath⟩
            low := s.pendingQ + 1 }
          .intervalExhausted) := by
        rw [hstepEq]
        unfold binaryFinishOrContinue
        split
        · rfl
        · rename_i hcond
          exact absurd hA1 hcond
      obtain ⟨hout, hlch⟩ := @applyBest_success env
        { s with
          disk := dropSupersededBest s
          best := some ⟨s.pendingQ, env.encSize s.pendingQ, s.pendingPath⟩
          low := s.pendingQ + 1 }
        ⟨s.pendingQ, env.encSize s.pendingQ, s.pendingPath⟩
        AttainNote.intervalExhausted
        rfl (by show ¬ s.pendingQ = 0; omega) hrep
      refine ⟨applyBest env
        { s with
          disk := dropSupersededBest s
          best := some ⟨s.pendingQ, env.encSize s.pendingQ, s.pendingPath⟩
          low := s.pendingQ + 1 }
        .intervalExhausted, s.pendingQ, ?_, ?_, hA, by omega, by omega, ?_,
        s.attempt, ?_, hatt1, ?_⟩
      · rw [run]
        rw [hfin]
      · rw [committedQuality, hout]
      · intro x hx1 hx2
        exact hbad x (by omega) hx2
      · show (applyBest env _ _).launched = 2 + s.attempt
        rw [hlch]
        exact hlaunch
      · calc 2 ^ (s.attempt - 1) ≤ len * 2 ^ (s.attempt - 1) :=
            Nat.le_mul_of_pos_left _ (by omega)
          _ ≤ s.qualityMax - 2 := by rw [hlen] at hhalve; exact hhalve
    · -- narrow upward and continue
      push_neg at hA1
      have hlen2 : s.high + 1 - (s.pendingQ + 1) ≤ len / 2 := by omega
      have hlen3 : 1 ≤ s.high + 1 - (s.pendingQ + 1) := by omega
      have hattpow : 2 ^ s.attempt = 2 ^ (s.attempt - 1) * 2 := by
        conv_lhs => rw [show s.attempt = (s.attempt - 1) + 1 from by omega]
        rw [pow_succ]
      have hhalve2 : (s.high + 1 - (s.pendingQ + 1)) * 2 ^ s.attempt ≤
          s.qualityMax - 2 := by
        calc (s.high + 1 - (s.pendingQ + 1)) * 2 ^ s.attempt
            = (s.high + 1 - (s.pendingQ + 1)) * 2 * 2 ^ (s.attempt - 1) := by
              rw [hattpow]; ring
          _ ≤ len * 2 ^ (s.attempt - 1) := Nat.mul_le_mul_right _ (by omega)
          _ ≤ s.qualityMax - 2 := by rw [hlen] at hhalve; exact hhalve
      have hattlt : s.attempt < s.maxAttempts := by
        have hppow : 2 ^ s.attempt ≤ s.qualityMax - 2 :=
          le_trans (Nat.le_mul_of_pos_left _ (by omega)) hhalve2
        have hq3 : 3 ≤ s.qualityMax := by omega
        have hlt2 : 2 ^ s.attempt < s.qualityMax - 1 := by omega
        have hle2 : s.qualityMax - 1 ≤ 2 ^ Nat.clog 2 (s.qualityMax - 1) :=
          Nat.le_pow_clog (by norm_num) _
        have : 2 ^ s.attempt < 2 ^ Nat.clog 2 (s.qualityMax - 1) := by omega
        have := (Nat.pow_lt_pow_iff_right (by norm_num : 1 < 2)).mp this
        omega
      have hstepInl : step env s = Sum.inl (startNextBinaryAttempt
          { s with
            disk := dropSupersededBest s
            best := some ⟨s.pendingQ, env.encSize s.pendingQ, s.pendingPath⟩
            low := s.pendingQ + 1 }) := by
        rw [hstepEq]
        unfold binaryFinishOrContinue
        split
        · rename_i hcond
          exact absurd (show s.high < s.pendingQ + 1 from hcond) (by omega)
        split
        · rename_i hcond
          exact absurd (show s.maxAttempts ≤ s.attempt from hcond) (by omega)
        rfl
      obtain ⟨f, bq, hrun, hcq, hgood, hbqp, hbqm, hmaxprop, a, hla, ha1, hpow⟩ :=
        ih (s.high + 1 - (s.pendingQ + 1)) (by omega) fuel
          (startNextBinaryAttempt
            { s with
              disk := dropSupersededBest s
              best := some ⟨s.pendingQ, env.encSize s.pendingQ, s.pendingPath⟩
              low := s.pendingQ + 1 })
          ⟨s.pendingQ, env.encSize s.pendingQ, s.pendingPath⟩
          (inv_step hs' hstepInl) hp rfl rfl
          (show env.encSize s.pendingQ ≤ s.targetBytes from hA)
          (show ∀ x, s.high < x → x ≤ s.qualityMax →
            s.targetBytes < env.encSize x from hbad)
          (show (s.high + 1 - (s.pendingQ + 1)) * 2 ^ (s.attempt + 1 - 1) ≤
            s.qualityMax - 2 from by
              have hea : s.attempt + 1 - 1 = s.attempt := by omega
              rw [hea]
              exact hhalve2)
          (show Nat.clog 2 (s.qualityMax - 1) ≤ s.maxAttempts from hcap)
          rfl
          (show s.maxAttempts + 1 ≤ fuel + (s.attempt + 1) from by omega)
      refine ⟨f, bq, ?_, hcq, hgood, hbqp, hbqm, hmaxprop, a, hla, ha1, hpow⟩
      rw [run, hstepInl]
      exact hrun
  · -- size over target: candidate rejected
    push_neg at hA
    have hrej : ¬ adoptsCandidate s (env.encSize s.pendingQ) s.pendingQ = true := by
      simp only [adoptsCandidate, hb, Bool.and_eq_true, decide_eq_true_eq]
      intro hcontra
      exact absurd hcontra.1 (by omega)
    rw [if_neg hrej] at hstepEq
    have hbadUp : ∀ x, s.pendingQ - 1 < x → x ≤ s.qualityMax →
        s.targetBytes < env.encSize x := by
      intro x hx1 hx2
      have hpx : s.pendingQ ≤ x := by omega
      exact lt_of_lt_of_le hA (hmono _ _ hpx)
    by_cases hB1 : s.pendingQ - 1 < s.low
    · -- interval exhausted: recorded best is final
      have hfin : step env s = Sum.inr (applyBest env
          { s with
            high := s.pendingQ - 1
            disk := unlink s.disk s.pendingPath }
          .intervalExhausted) := by
        rw [hstepEq]
        unfold binaryFinishOrContinue
        split
        · rfl
        · rename_i hcond
          exact absurd hB1 hcond
      obtain ⟨hout, hlch⟩ := @applyBest_success env
        { s with
          high := s.pendingQ - 1
          disk := unlink s.disk s.pendingPath }
        b AttainNote.intervalExhausted
        hb (by omega) hrep
      refine ⟨applyBest env
        { s with
          high := s.pendingQ - 1
          disk := unlink s.disk s.pendingPath }
        .intervalExhausted, b.quality, ?_, ?_, hbgood, by omega, by omega, ?_,
        s.attempt, ?_, hatt1, ?_⟩
      · rw [run]
        rw [hfin]
      · rw [committedQuality, hout]
      · intro x hx1 hx2
        exact hbadUp x (by omega) hx2
      · show (applyBest env _ _).launched = 2 + s.attempt
        rw [hlch]
        exact hlaunch
      · calc 2 ^ (s.attempt - 1) ≤ len * 2 ^ (s.attempt - 1) :=
            Nat.le_mul_of_pos_left _ (by omega)
          _ ≤ s.qualityMax - 2 := by rw [hlen] at hhalve; exact hhalve
    · -- narrow downward and continue
      push_neg at hB1
      have hlen2 : s.pendingQ - 1 + 1 - s.low ≤ len / 2 := by omega
      have hlen3 : 1 ≤ s.pendingQ - 1 + 1 - s.low := by omega
      have hattpow : 2 ^ s.attempt = 2 ^ (s.attempt - 1) * 2 := by
        conv_lhs => rw [show s.attempt = (s.attempt - 1) + 1 from by omega]
        rw [pow_succ]
      have hhalve2 : (s.pendingQ - 1 + 1 - s.low) * 2 ^ s.attempt ≤
          s.qualityMax - 2 := by
        calc (s.pendingQ - 1 + 1 - s.low) * 2 ^ s.attempt
            = (s.pendingQ - 1 + 1 - s.low) * 2 * 2 ^ (s.attempt - 1) := by
              rw [hattpow]; ring
          _ ≤ len * 2 ^ (s.attempt - 1) := Nat.mul_le_mul_right _ (by omega)
          _ ≤ s.qualityMax - 2 := by rw [hlen] at hhalve; exact hhalve
      have hattlt : s.attempt < s.maxAttempts := by
        have hppow : 2 ^ s.attempt ≤ s.qualityMax - 2 :=
          le_trans (Nat.le_mul_of_pos_left _ (by omega)) hhalve2
        have hq3 : 3 ≤ s.qualityMax := by omega
        have hlt2 : 2 ^ s.attempt < s.qualityMax - 1 := by omega
        have hle2 : s.qualityMax - 1 ≤ 2 ^ Nat.clog 2 (s.qualityMax - 1) :=
          Nat.le_pow_clog (by norm_num) _
        have : 2 ^ s.attempt < 2 ^ Nat.clog 2 (s.qualityMax - 1) := by omega
        have := (Nat.pow_lt_pow_iff_right (by norm_num : 1 < 2)).mp this
        omega
      have hstepInl : step env s = Sum.inl (startNextBinaryAttempt
          { s with
            high := s.pendingQ - 1
            disk := unlink s.disk s.pendingPath }) := by
        rw [hstepEq]
        unfold binaryFinishOrContinue
        split
        · rename_i hcond
          exact absurd (show s.pendingQ - 1 < s.low from hcond) (by omega)
        split
        · rename_i hcond
          exact absurd (show s.maxAttempts ≤ s.attempt from hcond) (by omega)
        rfl
      obtain ⟨f, bq, hrun, hcq, hgood, hbqp, hbqm, hmaxprop, a, hla, ha1, hpow⟩ :=
        ih (s.pendingQ - 1 + 1 - s.low) (by omega) fuel
          (startNextBinaryAttempt
            { s with
              high := s.pendingQ - 1
              disk := unlink s.disk s.pendingPath })
          b
          (inv_step hs' hstepInl) hp hb hbsize
          (show env.encSize b.quality ≤ s.targetBytes from hbgood)
          (show ∀ x, s.pendingQ - 1 < x → x ≤ s.qualityMax →
            s.targetBytes < env.encSize x from hbadUp)
          (show (s.pendingQ - 1 + 1 - s.low) * 2 ^ (s.attempt + 1 - 1) ≤
            s.qualityMax - 2 from by
              have hea : s.attempt + 1 - 1 = s.attempt := by omega
              rw [hea]
              exact hhalve2)
          (show Nat.clog 2 (s.qualityMax - 1) ≤ s.maxAttempts from hcap)
          rfl
          (show s.maxAttempts + 1 ≤ fuel + (s.attempt + 1) from by omega)
      refine ⟨f, bq, ?_, hcq, hgood, hbqp, hbqm, hmaxprop, a, hla, ha1, hpow⟩
      rw [run, hstepInl]
      exact hrun

theorem run_succ (env : Env) (fuel : Nat) (s : SizeSearchState) :
    run env (fuel + 1) s =
      match step env s with
      | .inr f => some f
      | .inl s1 => run env fuel s1 := rfl

/-- Claim C3: for a synthetic encoder whose reported size is non-decreasing in
quality, when the ProbeHigh attempt (at `quality_max = q`) exceeds the target
and the ProbeLow attempt (at `quality_min = 1`) is within it, the size search
commits exactly the maximal quality in `[1, q]` whose size is at or under
`target_bytes`, within `ceil(log2(q - 1)) + 2` total encode attempts, given
that `max_attempts = 12` does not cut the search short. -/
theorem C3_monotone_refine_convergence (env : Env) (q t : Nat) (d : Bool)
    (hmono : ∀ a b2, a ≤ b2 → env.encSize a ≤ env.encSize b2)
    (hok : ∀ x, env.encOk x = true) (hstat : ∀ x, env.statOk x = true)
    (hrep : env.replaceOk = true)
    (hq2 : 2 ≤ q) (hhigh : t < env.encSize q) (hlow : env.encSize 1 ≤ t)
    (hcap : Nat.clog 2 (q - 1) ≤ 12) :
    ∃ f, run env 15 (initState q t d) = some f ∧
      committedQuality f =
        some (Nat.findGreatest (fun x => env.encSize x ≤ t) q) ∧
      f.launched ≤ 2 + Nat.clog 2 (q - 1) := by
  have hmax : max 1 q = q := by omega
  have hencmax : env.encSize (max 1 q) = env.encSize q := by rw [hmax]
  have step0 := @step_testMax_eq env (initState q t d) rfl (hok _) (hstat _)
  split at step0
  · rename_i hc
    exact absurd (show env.encSize (max 1 q) ≤ t from hc) (by omega)
  have step1Eq := @step_testMin_eq env
    (launchAttempt
      { initState q t d with
        disk := unlink (initState q t d).disk (initState q t d).pendingPath
        phase := .testMin }
      (initState q t d).qualityMin)
    rfl (hok _) (hstat _)
  split at step1Eq
  · rename_i hc
    exact absurd (show t < env.encSize 1 from hc) (by omega)
  split at step1Eq
  · -- q = 2: the open interval is empty, the ProbeLow result is committed
    rename_i hc2
    have hq2eq : q = 2 := by
      have hc2b : max 1 q - 1 < 1 + 1 := hc2
      omega
    obtain ⟨hout, hlch⟩ := @applyBest_success env
      { launchAttempt
          { initState q t d with
            disk := unlink (initState q t d).disk (initState q t d).pendingPath
            phase := .testMin }
          (initState q t d).qualityMin with
        best := some ⟨(initState q t d).qualityMin,
          env.encSize (initState q t d).qualityMin, 1⟩
        phase := .binary
        low := (initState q t d).qualityMin + 1
        high := (initState q t d).qualityMax - 1 }
      ⟨(initState q t d).qualityMin,
        env.encSize (initState q t d).qualityMin, 1⟩
      AttainNote.metAtMinNoGap
      rfl (by show ¬ (1 : Nat) = 0; omega) hrep
    have hfg : Nat.findGreatest (fun x => env.encSize x ≤ t) q = 1 := by
      rw [Nat.findGreatest_eq_iff]
      refine ⟨by omega, fun _ => hlow, ?_⟩
      intro n hn1 hn2
      have hnq : n = q := by omega
      rw [hnq]
      exact not_le.mpr hhigh
    refine ⟨applyBest env
      { launchAttempt
          { initState q t d with
            disk := unlink (initState q t d).disk (initState q t d).pendingPath
            phase := .testMin }
          (initState q t d).qualityMin with
        best := some ⟨(initState q t d).qualityMin,
          env.encSize (initState q t d).qualityMin, 1⟩
        phase := .binary
        low := (initState q t d).qualityMin + 1
        high := (initState q t d).qualityMax - 1 }
      .metAtMinNoGap, ?_, ?_, ?_⟩
    · show run env (14 + 1) (initState q t d) = _
      rw [run_succ]
      simp only [step0]
      show run env (13 + 1) _ = _
      rw [run_succ]
      simp only [step1Eq]
      rfl
    · rw [hfg, committedQuality, hout]
      rfl
    · show (applyBest env _ _).launched ≤ 2 + Nat.clog 2 (q - 1)
      rw [hlch]
      show (2 : Nat) ≤ 2 + Nat.clog 2 (q - 1)
      omega
  · -- q at least 3: the binary phase runs to the maximal admissible quality
    rename_i hc2
    have hq3 : 3 ≤ q := by
      have hc2b : ¬ (max 1 q - 1 < 1 + 1) := hc2
      omega
    obtain ⟨f, bq, hrun, hcq, hgood, hbqp, hbqm, hmaxprop, a, hla, ha1, hpow⟩ :=
      refine_run hmono hok hstat hrep
        ((initState q t d).qualityMax - 1 + 1 - ((initState q t d).qualityMin + 1))
        13
        (startNextBinaryAttempt
          { launchAttempt
              { initState q t d with
                disk := unlink (initState q t d).disk (initState q t d).pendingPath
                phase := .testMin }
              (initState q t d).qualityMin with
            best := some ⟨(initState q t d).qualityMin,
              env.encSize (initState q t d).qualityMin, 1⟩
            phase := .binary
            low := (initState q t d).qualityMin + 1
            high := (initState q t d).qualityMax - 1 })
        ⟨(initState q t d).qualityMin,
          env.encSize (initState q t d).qualityMin, 1⟩
        (inv_step (inv_step (inv_initState q t d) step0) step1Eq)
        rfl rfl rfl
        (show env.encSize 1 ≤ t from hlow)
        (show ∀ x, max 1 q - 1 < x → x ≤ max 1 q → t < env.encSize x from by
          intro x h1 h2
          have hxq : x = q := by omega
          rw [hxq]
          exact hhigh)
        (show (max 1 q - 1 + 1 - (1 + 1)) * 2 ^ (0 + 1 - 1) ≤ max 1 q - 2 from by
          simp only [Nat.add_sub_cancel, pow_zero, Nat.mul_one]
          omega)
        (show Nat.clog 2 (max 1 q - 1) ≤ 12 from by rw [hmax]; exact hcap)
        rfl
        (show (12 : Nat) + 1 ≤ 13 + (0 + 1) from by omega)
    have hgood2 : env.encSize bq ≤ t := hgood
    have hbqm2 : bq ≤ max 1 q := hbqm
    have hmaxprop2 : ∀ x, bq < x → x ≤ max 1 q → t < env.encSize x := hmaxprop
    have hpow2 : 2 ^ (a - 1) ≤ max 1 q - 2 := hpow
    have hfg : Nat.findGreatest (fun x => env.encSize x ≤ t) q = bq := by
      rw [Nat.findGreatest_eq_iff]
      refine ⟨by omega, fun _ => hgood2, ?_⟩
      intro n hn1 hn2
      exact not_le.mpr (hmaxprop2 n hn1 (by omega))
    have hclog : a ≤ Nat.clog 2 (q - 1) := by
      have h1 : 2 ^ (a - 1) < q - 1 := by omega
      have h2 : q - 1 ≤ 2 ^ Nat.clog 2 (q - 1) :=
        Nat.le_pow_clog (by norm_num) _
      have h3 : 2 ^ (a - 1) < 2 ^ Nat.clog 2 (q - 1) := by omega
      have h4 := (Nat.pow_lt_pow_iff_right (by norm_num : 1 < 2)).mp h3
      omega
    refine ⟨f, ?_, ?_, by omega⟩
    · show run env (14 + 1) (initState q t d) = some f
      rw [run_succ]
      simp only [step0]
      show run env (13 + 1) _ = some f
      rw [run_succ]
      simp only [step1Eq]
      exact hrun
    · rw [hcq, hfg]

theorem applyBest_launched (env : Env) (s : SizeSearchState) (note : AttainNote) :
    (applyBest env s note).launched = s.launched := by
  rw [applyBest]
  split
  · rfl
  split
  · rfl
  split
  · rfl
  · rfl

theorem stepN_fields {env : Env} :
    ∀ (n : Nat) (s s1 : SizeSearchState), stepN env n s = some s1 →
      s1.qualityMin = s.qualityMin ∧ s1.qualityMax = s.qualityMax ∧
      s1.maxAttempts = s.maxAttempts
  | 0, s, s1, h => by
    rw [stepN] at h
    injection h with h1
    subst h1
    exact ⟨rfl, rfl, rfl⟩
  | n + 1, s, s1, h => by
    rw [stepN] at h
    rcases h2 : step env s with s2 | f
    · simp only [h2] at h
      obtain ⟨ha, hb, hc⟩ := stepN_fields n s2 s1 h
      obtain ⟨ht, hqm, hqx, hma, hl⟩ := step_inl_fields h2
      exact ⟨by rw [ha, hqm], by rw [hb, hqx], by rw [hc, hma]⟩
    · simp only [h2] at h
      exact Option.noConfusion h

/-- Claim C1 (counterexample): in a size-constrained run whose destination
already held a file (overwrite confirmed), canceling mid-Refine does NOT
leave the original file untouched — `_cancel_make_badge` unlinks
`_final_out_path`, so the pre-existing file is deleted. -/
theorem C1_cancel_counterexample :
    stepN envC1 2 (initState 3 5 true) = some sC1 ∧
    sC1.phase = Phase.binary ∧
    (initState 3 5 true).finalContent = some FinalContent.original ∧
    (cancelRun sC1).finalContent = none ∧
    ¬ (cancelRun sC1).finalContent = some FinalContent.original := by
  refine ⟨by decide, by decide, by decide, by decide, by decide⟩

/-- Claim C1 (amended): canceling a size-constrained run at any reachable
point deletes the run's temporary artifacts AND unlinks the final destination
path: the run ends `Canceled` with no temp file on disk and nothing (not even
a pre-existing file) at the destination. -/
theorem C1_cancel_unlinks_destination (env : Env) (q t : Nat) (d : Bool)
    (n : Nat) (s : SizeSearchState)
    (h : stepN env n (initState q t d) = some s) :
    (cancelRun s).outcome = Outcome.canceled ∧
    (cancelRun s).disk = [] ∧
    (cancelRun s).finalContent = none :=
  ⟨rfl, cancelRun_disk (stepN_inv n (initState q t d) s (inv_initState q t d) h),
    rfl⟩

/-- Witness for claim C1: the amended cancellation behavior at the concrete
mid-Refine state of the `envC1` run. -/
theorem C1_cancel_witness :
    stepN envC1 2 (initState 3 5 true) = some sC1 ∧
    (cancelRun sC1).outcome = Outcome.canceled ∧
    (cancelRun sC1).disk = [] ∧
    (cancelRun sC1).finalContent = none :=
  ⟨by decide, C1_cancel_unlinks_destination envC1 3 5 true 2 sC1 (by decide)⟩

/-- Claim C2 (counterexample): a run with `quality_min = quality_max = 1`
whose single probe exceeds the target launches a second encode attempt at the
same quality instead of terminating after exactly one attempt. -/
theorem C2_two_attempts_counterexample :
    run envC2 15 (initState 1 7 false) = some fC2 ∧
    (initState 1 7 false).qualityMin = (initState 1 7 false).qualityMax ∧
    fC2.launched = 2 ∧ ¬ fC2.launched = 1 := by
  refine ⟨by decide, by decide, by decide, by decide⟩

/-- Claim C2 (amended): a size-constrained run with
`quality_min = quality_max` terminates after exactly one encode attempt when
that attempt's size is within the target; when the target is smaller than
that size, a second attempt at `quality_min` (the same quality value) is
launched and the run terminates after two attempts. -/
theorem C2_degenerate_range_attempts (env : Env) (t : Nat) (d : Bool) (q : Nat)
    (hq : q ≤ 1) (hok : ∀ x, env.encOk x = true)
    (hstat : ∀ x, env.statOk x = true) :
    (env.encSize 1 ≤ t →
      (run env 15 (initState q t d)).map FinalReport.launched = some 1) ∧
    (t < env.encSize 1 →
      (run env 15 (initState q t d)).map FinalReport.launched = some 2) := by
  have hmax : max 1 q = 1 := by omega
  have hencm : env.encSize (max 1 q) = env.encSize 1 := by rw [hmax]
  constructor
  · intro hle
    have step0 := @step_testMax_eq env (initState q t d) rfl (hok _) (hstat _)
    split at step0
    · show (run env (14 + 1) (initState q t d)).map FinalReport.launched = some 1
      rw [run_succ]
      simp only [step0, Option.map_some']
      rw [applyBest_launched]
      rfl
    · rename_i hc
      exact absurd (show env.encSize (max 1 q) ≤ t from by omega) hc
  · intro hlt
    have step0 := @step_testMax_eq env (initState q t d) rfl (hok _) (hstat _)
    split at step0
    · rename_i hc
      exact absurd (show env.encSize (max 1 q) ≤ t from hc) (by omega)
    have step1Eq := @step_testMin_eq env
      (launchAttempt
        { initState q t d with
          disk := unlink (initState q t d).disk (initState q t d).pendingPath
          phase := .testMin }
        (initState q t d).qualityMin)
      rfl (hok _) (hstat _)
    split at step1Eq
    · show (run env (14 + 1) (initState q t d)).map FinalReport.launched = some 2
      rw [run_succ]
      simp only [step0]
      show (run env (13 + 1) _).map FinalReport.launched = some 2
      rw [run_succ]
      simp only [step1Eq, Option.map_some']
      rw [applyBest_launched]
      rfl
    · rename_i hc
      exact absurd (show t < env.encSize 1 from hlt) hc

/-- Witness for claim C2: the amended attempt counts on the concrete
degenerate run of `envC2`. -/
theorem C2_degenerate_witness :
    (run envC2 15 (initState 1 7 false)).map FinalReport.launched = some 2 :=
  (C2_degenerate_range_attempts envC2 7 false 1 (by omega) (fun _ => rfl)
    (fun _ => rfl)).2 (by decide)

/-- Witness for claim C3: on the identity-size oracle with quality 8 and
target 5, the search commits quality 5 (the maximal quality with size at most
5) within `clog2 7 + 2 = 5` attempts. -/
theorem C3_refine_witness :
    run envC3 15 (initState 8 5 false) = some fC3 ∧
    committedQuality fC3 =
      some (Nat.findGreatest (fun x => envC3.encSize x ≤ 5) 8) ∧
    fC3.launched ≤ 2 + Nat.clog 2 (8 - 1) := by
  obtain ⟨f, hf, hcq, hl⟩ := C3_monotone_refine_convergence envC3 8 5 false
    (fun a b2 h => h) (fun _ => rfl) (fun _ => rfl) rfl (by omega) (by decide)
    (by decide)
    ((Nat.le_pow_iff_clog_le (by norm_num)).mp (by norm_num))
  have hfl : run envC3 15 (initState 8 5 false) = some fC3 := by decide
  rw [hf] at hfl
  injection hfl with hfl
  rw [hfl] at hcq hl
  exact ⟨by decide, hcq, hl⟩

/-- Claim C4: every size-constrained run that commits a result commits one
whose size is within the target, or else one whose quality is the
`quality_min` floor (the target-unattainable best-effort branch). -/
theorem C4_done_within_target_or_floor (env : Env) (q t : Nat) (d : Bool)
    (fuel : Nat) (f : FinalReport) (bq bsz : Nat) (note : AttainNote)
    (h : run env fuel (initState q t d) = some f)
    (hout : f.outcome = Outcome.success bq bsz note) :
    bsz ≤ t ∨ bq = (initState q t d).qualityMin :=
  ((run_props fuel (initState q t d) f (inv_initState q t d) h).2.2.2
    bq bsz note hout).1

/-- Witness for claim C4: the committed result of the `envC3` run satisfies
the invariant through its first disjunct. -/
theorem C4_witness :
    run envC3 15 (initState 8 5 false) = some fC3 ∧
    fC3.outcome = Outcome.success 5 5 AttainNote.intervalExhausted ∧
    (5 ≤ 5 ∨ 5 = (initState 8 5 false).qualityMin) :=
  ⟨by decide, by decide,
    C4_done_within_target_or_floor envC3 8 5 false 15 fC3 5 5
      AttainNote.intervalExhausted (by decide) (by decide)⟩

/-- Claim C5: every size-constrained run terminates (fuel 15 always
suffices), and the total number of encode attempts launched never exceeds
`2 + max_attempts`, both at every intermediate state and in the terminal
report. -/
theorem C5_bounded_attempts (env : Env) (q t : Nat) (d : Bool) :
    (∃ f, run env 15 (initState q t d) = some f) ∧
    (∀ fuel f, run env fuel (initState q t d) = some f →
      f.launched ≤ 2 + (initState q t d).maxAttempts) ∧
    (∀ n s, stepN env n (initState q t d) = some s →
      s.launched ≤ 2 + (initState q t d).maxAttempts) := by
  refine ⟨?_, ?_, ?_⟩
  · exact run_terminates 15 (initState q t d) (inv_initState q t d)
      (show (12 : Nat) + 3 ≤ 15 + 1 from by omega)
  · intro fuel f h
    exact (run_props fuel (initState q t d) f (inv_initState q t d) h).2.1
  · intro n s h
    have hs := stepN_inv n (initState q t d) s (inv_initState q t d) h
    have hm := (stepN_fields n (initState q t d) s h).2.2
    have hl := inv_launched_le hs
    rw [hm] at hl
    exact hl

/-- Witness for claim C5: the attempt bound on the concrete `envC2` run. -/
theorem C5_witness :
    run envC2 15 (initState 1 7 false) = some fC2 ∧
    fC2.launched ≤ 2 + (initState 1 7 false).maxAttempts :=
  ⟨by decide, (C5_bounded_attempts envC2 1 7 false).2.1 15 fC2 (by decide)⟩

/-- Claim C6 (counterexample): in the degenerate run with
`quality_min = quality_max = 1` whose probe exceeds the target, quality 1 is
attempted twice, so qualities are not pairwise distinct. -/
theorem C6_duplicate_quality_counterexample :
    run envC2 15 (initState 1 5 false) = some fC6 ∧
    fC6.qualities = [1, 1] ∧ ¬ fC6.qualities.Nodup := by
  refine ⟨by decide, by decide, by decide⟩

/-- Claim C6 (amended): whenever `quality_min < quality_max` (requested
quality at least 2), every quality value is attempted at most once over the
whole run: the launched-quality log of the terminal report has no
duplicates. In the degenerate case `quality_min = quality_max` the single
quality can be attempted twice. -/
theorem C6_no_duplicate_attempts (env : Env) (q t : Nat) (d : Bool)
    (fuel : Nat) (f : FinalReport) (hq : 2 ≤ q)
    (h : run env fuel (initState q t d) = some f) : f.qualities.Nodup :=
  run_qualities_nodup fuel (initState q t d) f (inv_initState q t d)
    (show (initState q t d).qualityMin < (initState q t d).qualityMax from by
      show 1 < max 1 q
      omega) h

/-- Witness for claim C6: the `envC3` run launches the pairwise distinct
qualities 8, 1, 4, 6, 5. -/
theorem C6_witness :
    run envC3 15 (initState 8 5 false) = some fC3 ∧ fC3.qualities.Nodup :=
  ⟨by decide, C6_no_duplicate_attempts envC3 8 5 false 15 fC3 (by omega)
    (by decide)⟩

/-- Claim C7 (counterexample): when promotion fails, the best temp artifact
is NOT left in place — the cleanup inside the exception handler deletes it
before the failure is reported, so no temp file remains on disk. -/
theorem C7_promotion_failure_counterexample :
    run envC7 15 (initState 9 5 false) = some fC7 ∧
    fC7.outcome = Outcome.failed FailReason.replaceFailed ∧
    fC7.disk = [] := by
  refine ⟨by decide, by decide, by decide⟩

/-- Claim C7 (amended): if promotion of the best artifact fails, the run
terminates `Failed` with the promotion diagnostic, and
`_cleanup_size_search_temp_files` has already deleted every temporary
artifact — including the best one — before the failure outcome is reported. -/
theorem C7_promotion_failure_cleans_temps (env : Env) (q t : Nat) (d : Bool)
    (fuel : Nat) (f : FinalReport)
    (h : run env fuel (initState q t d) = some f)
    (_hout : f.outcome = Outcome.failed FailReason.replaceFailed) :
    f.disk = [] :=
  (run_props fuel (initState q t d) f (inv_initState q t d) h).1

/-- Witness for claim C7: the concrete promotion-failure run of `envC7`. -/
theorem C7_witness :
    run envC7 15 (initState 9 5 false) = some fC7 ∧ fC7.disk = [] :=
  ⟨by decide, C7_promotion_failure_cleans_temps envC7 9 5 false 15 fC7
    (by decide) (by decide)⟩

/-- Claim C8: on every terminal outcome of a size-constrained run — success,
failure, or cancellation — no temporary artifact file remains on disk: every
temp path created during the run has been deleted or promoted. -/
theorem C8_no_orphan_temps :
    (∀ (env : Env) (q t : Nat) (d : Bool) (fuel : Nat) (f : FinalReport),
      run env fuel (initState q t d) = some f → f.disk = []) ∧
    (∀ (env : Env) (q t : Nat) (d : Bool) (n : Nat) (s : SizeSearchState),
      stepN env n (initState q t d) = some s → (cancelRun s).disk = []) := by
  constructor
  · intro env q t d fuel f h
    exact (run_props fuel (initState q t d) f (inv_initState q t d) h).1
  · intro env q t d n s h
    exact cancelRun_disk (stepN_inv n (initState q t d) s (inv_initState q t d) h)

/-- Witness for claim C8: no orphaned temp file after the `envC2` run, nor
after canceling the `envC1` run mid-Refine. -/
theorem C8_witness :
    (run envC2 15 (initState 1 7 false) = some fC2 ∧ fC2.disk = []) ∧
    (stepN envC1 2 (initState 3 5 true) = some sC1 ∧ (cancelRun sC1).disk = []) :=
  ⟨⟨by decide, C8_no_orphan_temps.1 envC2 1 7 false 15 fC2 (by decide)⟩,
    ⟨by decide, C8_no_orphan_temps.2 envC1 3 5 true 2 sC1 (by decide)⟩⟩

/-- Claim C9: at every reachable moment of a size-constrained run, at most
two temporary artifact files exist on disk — exactly the in-flight attempt,
plus the current best artifact when one is recorded. -/
theorem C9_at_most_two_temp_files (env : Env) (q t : Nat) (d : Bool)
    (n : Nat) (s : SizeSearchState)
    (h : stepN env n (initState q t d) = some s) :
    s.disk.length ≤ 2 ∧
    (s.disk = [s.pendingPath] ∨
      ∃ b, s.best = some b ∧ s.disk = [b.tempPath, s.pendingPath]) := by
  have hshape := inv_disk_shape (stepN_inv n (initState q t d) s
    (inv_initState q t d) h)
  refine ⟨?_, hshape⟩
  rcases hshape with hshape | ⟨b, hb, hshape⟩ <;> rw [hshape] <;> simp

/-- Witness for claim C9: the disk shape at the concrete mid-Refine state of
the `envC1` run. -/
theorem C9_witness :
    stepN envC1 2 (initState 3 5 true) = some sC1 ∧ sC1.disk.length ≤ 2 :=
  ⟨by decide, (C9_at_most_two_temp_files envC1 3 5 true 2 sC1 (by decide)).1⟩

/-- Claim C10: whenever a size-constrained run records a best result, its
quality is at least `quality_min = 1`, and the commit-step error branch for a
missing or falsy best result (the Failed outcome with the message for no
usable output) is unreachable: no run from `initState` ever terminates with
it. -/
theorem C10_commit_never_lacks_best :
    (∀ (env : Env) (q t : Nat) (d : Bool) (fuel : Nat) (f : FinalReport),
      run env fuel (initState q t d) = some f →
      f.outcome ≠ Outcome.failed FailReason.noUsableOutput) ∧
    (∀ (env : Env) (q t : Nat) (d : Bool) (n : Nat) (s : SizeSearchState)
      (b : BestResult), stepN env n (initState q t d) = some s →
      s.best = some b → 1 ≤ b.quality) := by
  constructor
  · intro env q t d fuel f h
    exact (run_props fuel (initState q t d) f (inv_initState q t d) h).2.2.1
  · intro env q t d n s b h hb
    exact inv_best_quality_pos
      (stepN_inv n (initState q t d) s (inv_initState q t d) h) hb

/-- Witness for claim C10: the promotion-failure run terminates with the
promotion diagnostic (never the no-usable-output one), and the mid-Refine
state of the `envC1` run has a best result of quality 1. -/
theorem C10_witness :
    (run envC7 15 (initState 9 5 false) = some fC7 ∧
      fC7.outcome ≠ Outcome.failed FailReason.noUsableOutput) ∧
    (stepN envC1 2 (initState 3 5 true) = some sC1 ∧
      sC1.best = some bestC1 ∧ 1 ≤ bestC1.quality) :=
  ⟨⟨by decide, C10_commit_never_lacks_best.1 envC7 9 5 false 15 fC7 (by decide)⟩,
    ⟨by decide, by decide,
      C10_commit_never_lacks_best.2 envC1 3 5 true 2 sC1 bestC1 (by decide)
        (by decide)⟩⟩

end DynamicBadge


